import Mathlib

/-!
Verification of the UKHASnet decoder (`UKHASnet-decoder.c`).

The decoder is embedded shallowly: the C globals become fields of an
explicit state record, machine integers become `Nat`/`Int` with explicit
reductions modulo 2^16 or 2^8 where the C types wrap, and the console
output becomes an explicit trace field (`output` for emitted packets,
`diags` counting verbose-only diagnostic prints, `writes` recording the
indices of all stores into the 255-byte payload buffer).
-/

set_option maxRecDepth 10000

/-- Sync word from the source (`#define SYNC_WORD 0x2DAA`). -/
def SYNC_WORD : Nat := 0x2DAA

/-- One iteration of the loop body of `crc_xmodem_update`: `crc` is a
`uint16_t`, so every shift is stored modulo 2^16. -/
def crcStep (crc : Nat) : Nat :=
  if crc &&& 0x8000 ≠ 0 then ((crc <<< 1) ^^^ 0x1021) % 65536
  else (crc <<< 1) % 65536

/-- `crc_xmodem_update` from the source: xor `(uint16_t) data << 8` into
`crc`, then run the shift loop eight times. -/
def crc_xmodem_update (crc : Nat) (data : Nat) : Nat :=
  crcStep^[8] ((crc ^^^ ((data % 65536) <<< 8)) % 65536)

/-- Running CRC over a list of bytes (successive calls to
`crc_xmodem_update`, as the assembler performs them). -/
def crcBytes (crc : Nat) (bs : List Nat) : Nat :=
  bs.foldl crc_xmodem_update crc

/-- The decoder's global state: the C globals `syncBuffer`, `byte`,
`packetSync`, `len`, `offset`, `computedCrc`, `readCrc`, `buffer`,
`skipBit` and `verbose`, plus explicit traces: `output` collects the
payloads printed by the `PACKET` branch, `diags` counts verbose-only
diagnostic prints, and `writes` records every index stored into
`buffer`. -/
structure DecState where
  syncBuffer : Nat
  byteReg : Nat
  packetSync : Bool
  len : Int
  offset : Nat
  computedCrc : Nat
  readCrc : Nat
  buffer : Nat → Nat
  skipBit : Int
  verbose : Bool
  output : List (List Nat)
  diags : Nat
  writes : List Nat

/-- `processByte` from the source.  Returns the new state together with
the C function's boolean result (continue reading the packet or not). -/
def processByte (s : DecState) (byte : Nat) : DecState × Bool :=
  if s.len = -1 then
    if (byte : Int) ≤ 255 - 1 then
      ({ s with len := (byte : Int),
                computedCrc := crc_xmodem_update s.computedCrc byte,
                diags := if s.verbose then s.diags + 1 else s.diags }, true)
    else
      ({ s with len := (byte : Int),
                computedCrc := crc_xmodem_update s.computedCrc byte,
                diags := if s.verbose then s.diags + 1 else s.diags }, false)
  else if (s.offset : Int) < s.len then
    ({ s with buffer := Function.update s.buffer s.offset byte,
              writes := s.writes ++ [s.offset],
              offset := s.offset + 1,
              computedCrc := crc_xmodem_update s.computedCrc byte }, true)
  else if (s.offset : Int) = s.len then
    ({ s with readCrc := (s.readCrc ||| ((byte % 65536) <<< 8)) % 65536,
              offset := s.offset + 1 }, true)
  else if (s.offset : Int) = s.len + 1 then
    if s.computedCrc = 0xffff - ((s.readCrc ||| byte) % 65536) then
      ({ s with readCrc := 0xffff - ((s.readCrc ||| byte) % 65536),
                output := s.output ++ [(List.range s.len.toNat).map s.buffer] }, false)
    else
      ({ s with readCrc := 0xffff - ((s.readCrc ||| byte) % 65536),
                diags := if s.verbose then s.diags + 1 else s.diags }, false)
  else
    (s, false)

/-- `byte = (byte << 1) | bit` on the `uint8_t` byte register. -/
def shiftIn8 (v : Nat) (bit : Bool) : Nat :=
  ((v <<< 1) ||| (if bit then 1 else 0)) % 256

/-- `syncBuffer = (syncBuffer << 1) | bit` on the `uint16_t` register. -/
def shiftIn16 (r : Nat) (bit : Bool) : Nat :=
  ((r <<< 1) ||| (if bit then 1 else 0)) % 65536

/-- The byte-complete path of `processBit`: the byte register holds the
completed byte `b`, the bit countdown is reset to 8, and `b` is handed to
`processByte`, whose boolean result becomes the new `packetSync`. -/
def feedByte (s : DecState) (b : Nat) : DecState :=
  let r := processByte { s with byteReg := b, skipBit := 8 } b
  { r.1 with packetSync := r.2 }

/-- `processBit` from the source: while `packetSync` holds, pack bits
MSB-first into `byte` (a `uint8_t`) and hand each completed byte to
`processByte`; otherwise shift into the 16-bit `syncBuffer` and test it
against `SYNC_WORD` and `0xffff - SYNC_WORD`, resetting the packet state
on a match. -/
def processBit (s : DecState) (bit : Bool) : DecState :=
  if s.packetSync then
    if s.skipBit - 1 < 1 then
      feedByte s (shiftIn8 s.byteReg bit)
    else
      { s with byteReg := shiftIn8 s.byteReg bit, skipBit := s.skipBit - 1 }
  else
    let r := shiftIn16 s.syncBuffer bit
    if r = SYNC_WORD ∨ r = 0xffff - SYNC_WORD then
      { s with syncBuffer := r, packetSync := true,
               diags := if s.verbose then s.diags + 1 else s.diags,
               skipBit := 8, len := -1, offset := 0,
               computedCrc := 0x1D0F, readCrc := 0 }
    else
      { s with syncBuffer := r, packetSync := false }

/-- Run the decoder over a list of bits. -/
def processBits (s : DecState) (L : List Bool) : DecState :=
  L.foldl processBit s

/-- The state at program start: the C globals' initialisers, with the
verbose flag `v`. -/
def initState (v : Bool) : DecState :=
  { syncBuffer := 0, byteReg := 0, packetSync := false, len := -1, offset := 0,
    computedCrc := 0x1D0F, readCrc := 0, buffer := fun _ => 0, skipBit := 8,
    verbose := v, output := [], diags := 0, writes := [] }

/-- Little-endian bits of `v`, `n` of them. -/
def bitsLE : Nat → Nat → List Bool
  | 0, _ => []
  | n + 1, v => decide (v % 2 = 1) :: bitsLE n (v / 2)

/-- The 8 bits of a byte, most significant first (transmission order). -/
def bits8 (b : Nat) : List Bool := (bitsLE 8 b).reverse

/-- The 16 bits of a word, most significant first. -/
def bits16 (w : Nat) : List Bool := (bitsLE 16 w).reverse

/-- A byte sequence as a bitstream, each byte MSB-first. -/
def bytesBits (bs : List Nat) : List Bool := bs.flatMap bits8

/-- The on-air encoding of a packet attempt: sync word, length byte,
payload bytes, then the two transmitted CRC bytes (high, low) of the raw
16-bit value `raw`. -/
def encodeWith (p : Nat) (Q : List Nat) (raw : Nat) : List Bool :=
  bits16 SYNC_WORD ++ (bits8 p ++ (bytesBits Q ++ (bits8 (raw / 256) ++ bits8 (raw % 256))))

/-- Sequentially store bytes `Q` into `buf` starting at index `i`. -/
def storeBytes (buf : Nat → Nat) (i : Nat) : List Nat → (Nat → Nat)
  | [] => buf
  | b :: R => storeBytes (Function.update buf i b) (i + 1) R

example : crc_xmodem_update 0x1D0F 0 ≠ 0xFFFF := by decide

example : crcBytes 0x1D0F [3, 65, 66, 67] < 65536 := by decide

/-- Reference CRC step, following the spec's words: if the high bit of
crc is set, shift left and xor `0x1021`, else shift left, reducing
modulo 2^16. -/
def crcSpecStep (crc : Nat) : Nat :=
  if crc.testBit 15 then ((crc <<< 1) ^^^ 0x1021) % 65536
  else (crc <<< 1) % 65536

/-- Reference CRC update, following the spec's words: xor `b << 8` into
`crc`, then apply the step eight times, modulo 2^16 throughout. -/
def crcSpec (crc b : Nat) : Nat :=
  crcSpecStep^[8] ((crc ^^^ (b <<< 8)) % 65536)

lemma xor_mod_two_pow (a b n : Nat) :
    (a ^^^ b) % 2 ^ n = (a % 2 ^ n) ^^^ (b % 2 ^ n) := by
  apply Nat.eq_of_testBit_eq
  intro i
  simp only [Nat.testBit_mod_two_pow, Nat.testBit_xor]
  cases h : decide (i < n) <;> simp

lemma and_high_bit (c : Nat) : c &&& 0x8000 ≠ 0 ↔ c.testBit 15 = true := by
  have h : c &&& 0x8000 = (c.testBit 15).toNat * 2 ^ 15 := Nat.and_two_pow c 15
  rw [h]
  cases c.testBit 15 <;> simp

lemma crcStep_eq_spec : crcStep = crcSpecStep := by
  funext c
  unfold crcStep crcSpecStep
  rcases h : c.testBit 15 with _ | _
  · rw [if_neg, if_neg]
    · simp [h]
    · rw [and_high_bit, h]; simp
  · rw [if_pos, if_pos]
    · rfl
    · rw [and_high_bit, h]

lemma crcStep_lt (c : Nat) : crcStep c < 65536 := by
  unfold crcStep
  split <;> omega

lemma crc_xmodem_update_lt (c b : Nat) : crc_xmodem_update c b < 65536 := by
  unfold crc_xmodem_update
  rw [show (8 : Nat) = 7 + 1 from rfl, Function.iterate_succ_apply']
  exact crcStep_lt _

lemma crcBytes_lt (c : Nat) (L : List Nat) (hc : c < 65536) : crcBytes c L < 65536 := by
  induction L generalizing c with
  | nil => exact hc
  | cons b R ih => exact ih _ (crc_xmodem_update_lt c b)

/-- Claim C2: the CRC update function agrees with the reference
definition from the spec (xor `b << 8`, then eight shift-xor steps with
polynomial `0x1021`, everything reduced modulo 2^16), and its result is
a 16-bit value.  The Lean embedding is a pure function of its two
arguments by construction, which settles the purity part of the claim. -/
theorem crc_update_matches_reference (crc b : Nat) (hc : crc < 65536) (hb : b < 256) :
    crc_xmodem_update crc b = crcSpec crc b ∧ crc_xmodem_update crc b < 65536 := by
  constructor
  · unfold crc_xmodem_update crcSpec
    rw [crcStep_eq_spec]
    congr 1
    have h1 : b % 65536 = b := by omega
    rw [h1]
  · exact crc_xmodem_update_lt crc b

/-- Witness for C2 at a concrete input. -/
theorem crc_update_matches_reference_witness :
    crc_xmodem_update 0x1D0F 0x41 = crcSpec 0x1D0F 0x41 ∧
      crc_xmodem_update 0x1D0F 0x41 < 65536 :=
  crc_update_matches_reference 0x1D0F 0x41 (by decide) (by decide)

/-- Folding bits into the sync register (no match test). -/
def syncFold (r : Nat) (L : List Bool) : Nat := L.foldl shiftIn16 r

/-- Does any prefix of `L`, shifted into the register `r`, produce a
sync match? -/
def syncScanHit : Nat → List Bool → Bool
  | _, [] => false
  | r, b :: L =>
    let x := shiftIn16 r b
    if x = SYNC_WORD ∨ x = 0xffff - SYNC_WORD then true else syncScanHit x L

lemma search_step_nomatch (s : DecState) (b : Bool) (hps : s.packetSync = false)
    (h : ¬(shiftIn16 s.syncBuffer b = SYNC_WORD ∨
           shiftIn16 s.syncBuffer b = 0xffff - SYNC_WORD)) :
    processBit s b = { s with syncBuffer := shiftIn16 s.syncBuffer b,
                              packetSync := false } := by
  unfold processBit
  rw [hps]
  simp only [Bool.false_eq_true, if_false, if_neg h]

lemma search_step_match (s : DecState) (b : Bool) (hps : s.packetSync = false)
    (h : shiftIn16 s.syncBuffer b = SYNC_WORD ∨
         shiftIn16 s.syncBuffer b = 0xffff - SYNC_WORD) :
    processBit s b = { s with syncBuffer := shiftIn16 s.syncBuffer b,
                              packetSync := true,
                              diags := if s.verbose then s.diags + 1 else s.diags,
                              skipBit := 8, len := -1, offset := 0,
                              computedCrc := 0x1D0F, readCrc := 0 } := by
  unfold processBit
  rw [hps]
  simp only [Bool.false_eq_true, if_false, if_pos h]

lemma searching_no_hit (L : List Bool) :
    ∀ s : DecState, s.packetSync = false → syncScanHit s.syncBuffer L = false →
      processBits s L = { s with syncBuffer := syncFold s.syncBuffer L,
                                 packetSync := false } := by
  induction L with
  | nil =>
    intro s hps _
    cases s
    simp only at hps
    subst hps
    rfl
  | cons b M ih =>
    intro s hps hscan
    unfold syncScanHit at hscan
    by_cases h : shiftIn16 s.syncBuffer b = SYNC_WORD ∨
        shiftIn16 s.syncBuffer b = 0xffff - SYNC_WORD
    · rw [if_pos h] at hscan
      exact absurd hscan (by simp)
    · rw [if_neg h] at hscan
      have hcons : processBits s (b :: M) = processBits (processBit s b) M := rfl
      rw [hcons, search_step_nomatch s b hps h, ih _ rfl (by simpa using hscan)]
      rfl

lemma syncFold_append (r : Nat) (A : List Bool) (b : Bool) :
    syncFold r (A ++ [b]) = shiftIn16 (syncFold r A) b := by
  unfold syncFold
  rw [List.foldl_append]
  rfl

lemma searching_lock (A : List Bool) (b : Bool) (s : DecState)
    (hps : s.packetSync = false) (hA : syncScanHit s.syncBuffer A = false)
    (hhit : syncFold s.syncBuffer (A ++ [b]) = SYNC_WORD ∨
            syncFold s.syncBuffer (A ++ [b]) = 0xffff - SYNC_WORD) :
    processBits s (A ++ [b]) =
      { s with syncBuffer := syncFold s.syncBuffer (A ++ [b]), packetSync := true,
               diags := if s.verbose then s.diags + 1 else s.diags,
               skipBit := 8, len := -1, offset := 0,
               computedCrc := 0x1D0F, readCrc := 0 } := by
  have hsplit : processBits s (A ++ [b]) = processBit (processBits s A) b := by
    unfold processBits
    rw [List.foldl_append]
    rfl
  rw [hsplit, searching_no_hit A s hps hA]
  rw [syncFold_append] at hhit ⊢
  rw [search_step_match _ b rfl (by simpa using hhit)]

lemma processByte_len_ne (s : DecState) (b : Nat) :
    (processByte s b).1.len ≠ -1 := by
  unfold processByte
  split_ifs with h1 h2 h3 h4 h5 <;> simp_all

/-- Claim C3: on the byte at offset `length + 1`, the raw received CRC is
replaced by `0xffff` minus its value before comparison; the payload (the
first `length` buffer bytes) is emitted exactly when the corrected value
equals the running CRC, a mismatch leaves the output untouched, and the
continuation flag is false in both outcomes. -/
theorem crc_final_byte_check (s : DecState) (n b : Nat)
    (hlen : s.len = (n : Int)) (hoff : s.offset = n + 1) :
    (processByte s b).2 = false ∧
    (processByte s b).1.readCrc = 0xffff - ((s.readCrc ||| b) % 65536) ∧
    ((processByte s b).1.output = s.output ++ [(List.range n).map s.buffer] ↔
       s.computedCrc = 0xffff - ((s.readCrc ||| b) % 65536)) ∧
    (s.computedCrc ≠ 0xffff - ((s.readCrc ||| b) % 65536) →
       (processByte s b).1.output = s.output) := by
  have h1 : ¬s.len = -1 := by rw [hlen]; omega
  have h2 : ¬((s.offset : Int) < s.len) := by rw [hlen, hoff]; push_cast; omega
  have h3 : ¬((s.offset : Int) = s.len) := by rw [hlen, hoff]; push_cast; omega
  have h4 : (s.offset : Int) = s.len + 1 := by rw [hlen, hoff]; push_cast; ring
  unfold processByte
  rw [if_neg h1, if_neg h2, if_neg h3, if_pos h4]
  by_cases hc : s.computedCrc = 0xffff - ((s.readCrc ||| b) % 65536)
  · rw [if_pos hc]
    refine ⟨rfl, rfl, ⟨fun _ => hc, fun _ => ?_⟩, fun hne => absurd hc hne⟩
    simp only [hlen, Int.toNat_natCast]
  · rw [if_neg hc]
    refine ⟨rfl, rfl, ?_, fun _ => rfl⟩
    constructor
    · intro h
      have := congrArg List.length h
      simp at this
    · intro h
      exact absurd h hc

/-- A concrete state about to consume the second CRC byte, used to
exercise `crc_final_byte_check`. -/
def finalCrcState : DecState :=
  { initState false with packetSync := true, len := 0, offset := 1,
                         computedCrc := 0, readCrc := 0xFF00 }

/-- Witness for C3: a concrete final-CRC state in which the corrected
received CRC matches and the empty payload is emitted. -/
theorem crc_final_byte_check_witness :
    (processByte finalCrcState 0xFF).2 = false ∧
    (processByte finalCrcState 0xFF).1.readCrc = 0 ∧
    (processByte finalCrcState 0xFF).1.output = [[]] := by
  have h := crc_final_byte_check finalCrcState 0 0xFF rfl rfl
  refine ⟨h.1, ?_, ?_⟩
  · rw [h.2.1]
    decide
  · rw [h.2.2.1.mpr (by decide)]
    rfl

lemma locked_step_bytedone (s : DecState) (bit : Bool)
    (hps : s.packetSync = true) (hc : s.skipBit - 1 < 1) :
    processBit s bit = feedByte s (shiftIn8 s.byteReg bit) := by
  unfold processBit
  rw [if_pos hps, if_pos hc]

lemma locked_step_mid (s : DecState) (bit : Bool)
    (hps : s.packetSync = true) (hc : ¬(s.skipBit - 1 < 1)) :
    processBit s bit = { s with byteReg := shiftIn8 s.byteReg bit,
                                skipBit := s.skipBit - 1 } := by
  unfold processBit
  rw [if_pos hps, if_neg hc]

/-- Claim C4: a length byte of 254 is accepted (continuation true) while
a length over 254 is rejected (continuation false) with no packet
emitted; in both cases the byte is fed into the running CRC.  After a
rejection the decoder is back in Searching and the sixteen bits of a
subsequent sync word always relock it. -/
theorem length_boundary_and_resync :
    (∀ (s : DecState) (b : Nat), s.len = -1 →
       ((processByte s b).2 = true ↔ (b : Int) ≤ 254) ∧
       (processByte s b).1.computedCrc = crc_xmodem_update s.computedCrc b ∧
       (processByte s b).1.len = (b : Int) ∧
       (processByte s b).1.output = s.output) ∧
    (∀ s : DecState, s.packetSync = false →
       (s.syncBuffer = SYNC_WORD ∨ s.syncBuffer = 0xffff - SYNC_WORD) →
       (processBits s (bits16 SYNC_WORD)).packetSync = true) := by
  constructor
  · intro s b h
    unfold processByte
    rw [if_pos h]
    by_cases hb : (b : Int) ≤ 255 - 1
    · rw [if_pos hb]
      exact ⟨⟨fun _ => by omega, fun _ => rfl⟩, rfl, rfl, rfl⟩
    · rw [if_neg hb]
      refine ⟨⟨fun hf => ?_, fun hle => ?_⟩, rfl, rfl, rfl⟩
      · simp at hf
      · exact absurd hle (by omega)
  · intro s hps hsb
    have hl : bits16 SYNC_WORD =
        [false, false, true, false, true, true, false, true,
         true, false, true, false, true, false, true] ++ [false] := by decide
    rw [hl]
    rcases hsb with h | h <;>
      rw [searching_lock _ _ _ hps (by rw [h]; decide) (by rw [h]; decide)]

/-- Witness for C4: boundary lengths 254 and 255 from the initial
assembler state, and relock from a post-rejection register value. -/
theorem length_boundary_and_resync_witness :
    (processByte (initState false) 254).2 = true ∧
    (processByte (initState false) 255).2 = false ∧
    (processBits { initState false with syncBuffer := SYNC_WORD }
       (bits16 SYNC_WORD)).packetSync = true := by
  obtain ⟨hlen, hresync⟩ := length_boundary_and_resync
  refine ⟨?_, ?_, ?_⟩
  · exact (hlen (initState false) 254 rfl).1.mpr (by decide)
  · have h := (hlen (initState false) 255 rfl).1
    cases hf : (processByte (initState false) 255).2
    · rfl
    · exact absurd (h.mp hf) (by decide)
  · exact hresync _ rfl (Or.inl rfl)

/-- Claim C5: in Searching, each bit shifts the 16-bit register, the
register is compared against the sync word and its 16-bit complement,
and a match sets Locked while atomically resetting the packet state
(length unset, offset 0, CRC reseeded to `0x1D0F`, received CRC 0, bit
countdown 8); a non-matching Searching step leaves the packet state
untouched, and no Locked step (from a reachable countdown of at most 8)
ever produces the freshly-reset configuration. -/
theorem sync_match_resets_packet_state (s : DecState) (b : Bool) :
    (s.packetSync = false →
       (processBit s b).syncBuffer = shiftIn16 s.syncBuffer b ∧
       ((processBit s b).packetSync = true ↔
          (shiftIn16 s.syncBuffer b = SYNC_WORD ∨
           shiftIn16 s.syncBuffer b = 0xffff - SYNC_WORD)) ∧
       ((processBit s b).packetSync = true →
          (processBit s b).len = -1 ∧ (processBit s b).offset = 0 ∧
          (processBit s b).computedCrc = 0x1D0F ∧ (processBit s b).readCrc = 0 ∧
          (processBit s b).skipBit = 8) ∧
       ((processBit s b).packetSync = false →
          (processBit s b).len = s.len ∧ (processBit s b).offset = s.offset ∧
          (processBit s b).computedCrc = s.computedCrc ∧
          (processBit s b).readCrc = s.readCrc ∧
          (processBit s b).skipBit = s.skipBit)) ∧
    (s.packetSync = true → s.skipBit ≤ 8 →
       ¬((processBit s b).len = -1 ∧ (processBit s b).skipBit = 8)) := by
  constructor
  · intro hps
    by_cases hm : shiftIn16 s.syncBuffer b = SYNC_WORD ∨
        shiftIn16 s.syncBuffer b = 0xffff - SYNC_WORD
    · rw [search_step_match s b hps hm]
      refine ⟨rfl, ⟨fun _ => hm, fun _ => rfl⟩,
              fun _ => ⟨rfl, rfl, rfl, rfl, rfl⟩, fun hfalse => ?_⟩
      simp at hfalse
    · rw [search_step_nomatch s b hps hm]
      refine ⟨rfl, ⟨fun ht => ?_, fun hm2 => absurd hm2 hm⟩,
              fun ht => ?_, fun _ => ⟨rfl, rfl, rfl, rfl, rfl⟩⟩
      · simp at ht
      · simp at ht
  · rintro hps hskip ⟨hlen, hsb8⟩
    by_cases hc : s.skipBit - 1 < 1
    · rw [locked_step_bytedone s b hps hc] at hlen
      exact processByte_len_ne _ _ (by simpa [feedByte] using hlen)
    · rw [locked_step_mid s b hps hc] at hsb8
      simp at hsb8
      omega

/-- A Searching state whose register is one shift away from the sync
word. -/
def preMatchState : DecState := { initState false with syncBuffer := 0x16D5 }

/-- Witness for C5: shifting a zero bit into `0x16D5` yields the sync
word `0x2DAA`, locking and resetting the packet state. -/
theorem sync_match_resets_packet_state_witness :
    (processBit preMatchState false).packetSync = true ∧
    (processBit preMatchState false).len = -1 ∧
    (processBit preMatchState false).computedCrc = 0x1D0F ∧
    (processBit preMatchState false).skipBit = 8 := by
  obtain ⟨h1, h2, h3, h4⟩ := (sync_match_resets_packet_state preMatchState false).1 rfl
  have hps := h2.mpr (Or.inl (by decide))
  obtain ⟨ha, hb, hc, hd, he⟩ := h3 hps
  exact ⟨hps, ha, hc, he⟩

/-- Invariant carried by every reachable decoder state: while locked the
accepted length is at most 254, and every recorded buffer write is below
index 255. -/
def WritesOk (s : DecState) : Prop :=
  (s.packetSync = true → s.len ≤ 254) ∧ ∀ i ∈ s.writes, i < 255

lemma writes_processByte (s : DecState) (b : Nat)
    (h1 : s.len ≤ 254) (h2 : ∀ i ∈ s.writes, i < 255) :
    ((processByte s b).2 = true → (processByte s b).1.len ≤ 254) ∧
    ∀ i ∈ (processByte s b).1.writes, i < 255 := by
  unfold processByte
  by_cases hl : s.len = -1
  · rw [if_pos hl]
    by_cases hb : (b : Int) ≤ 255 - 1
    · rw [if_pos hb]
      refine ⟨fun _ => ?_, h2⟩
      show (b : Int) ≤ 254
      omega
    · rw [if_neg hb]
      exact ⟨fun hf => by simp at hf, h2⟩
  · rw [if_neg hl]
    by_cases ho : (s.offset : Int) < s.len
    · rw [if_pos ho]
      refine ⟨fun _ => h1, ?_⟩
      show ∀ i ∈ s.writes ++ [s.offset], i < 255
      intro i hi
      rcases List.mem_append.mp hi with hi | hi
      · exact h2 i hi
      · have he : i = s.offset := by simpa using hi
        subst he
        omega
    · rw [if_neg ho]
      by_cases ho2 : (s.offset : Int) = s.len
      · rw [if_pos ho2]
        exact ⟨fun _ => h1, h2⟩
      · rw [if_neg ho2]
        by_cases ho3 : (s.offset : Int) = s.len + 1
        · rw [if_pos ho3]
          by_cases hcrc : s.computedCrc = 0xffff - ((s.readCrc ||| b) % 65536)
          · rw [if_pos hcrc]
            exact ⟨fun hf => by simp at hf, h2⟩
          · rw [if_neg hcrc]
            exact ⟨fun hf => by simp at hf, h2⟩
        · rw [if_neg ho3]
          exact ⟨fun hf => by simp at hf, h2⟩

lemma writesOk_processBit (s : DecState) (b : Bool) (h : WritesOk s) :
    WritesOk (processBit s b) := by
  obtain ⟨hlen, hw⟩ := h
  cases hps : s.packetSync with
  | false =>
    by_cases hm : shiftIn16 s.syncBuffer b = SYNC_WORD ∨
        shiftIn16 s.syncBuffer b = 0xffff - SYNC_WORD
    · rw [search_step_match s b hps hm]
      exact ⟨fun _ => by norm_num, hw⟩
    · rw [search_step_nomatch s b hps hm]
      exact ⟨fun hf => by simp at hf, hw⟩
  | true =>
    by_cases hc : s.skipBit - 1 < 1
    · rw [locked_step_bytedone s b hps hc]
      unfold feedByte
      have := writes_processByte { s with byteReg := shiftIn8 s.byteReg b, skipBit := 8 }
        (shiftIn8 s.byteReg b) (by simpa using hlen hps) (by simpa using hw)
      exact ⟨fun ht => this.1 (by simpa using ht), by simpa using this.2⟩
    · rw [locked_step_mid s b hps hc]
      exact ⟨fun _ => hlen hps, hw⟩

lemma writesOk_processBits (L : List Bool) :
    ∀ s : DecState, WritesOk s → WritesOk (processBits s L) := by
  induction L with
  | nil => exact fun s h => h
  | cons b M ih =>
    intro s h
    exact ih (processBit s b) (writesOk_processBit s b h)

/-- Claim C10: over any bitstream from the initial state, every store
into the payload buffer lands strictly below index 255 (the write trace
records the index of each store performed by the data branch of
`processByte`). -/
theorem buffer_writes_in_bounds (v : Bool) (L : List Bool) :
    ((processBits (initState v) L).writes.all fun i => decide (i < 255)) = true := by
  have h := writesOk_processBits L (initState v)
    ⟨fun hf => by simp [initState] at hf, by simp [initState]⟩
  rw [List.all_eq_true]
  intro i hi
  exact decide_eq_true (h.2 i hi)

/-- Forget the diagnostic channel: verbose flag off and diagnostic count
zeroed.  Two states equal after `scrub` agree on everything the decoder
computes apart from diagnostics. -/
def scrub (s : DecState) : DecState := { s with verbose := false, diags := 0 }

lemma scrub_processByte (s : DecState) (b : Nat) :
    (processByte (scrub s) b).1 = scrub (processByte s b).1 ∧
    (processByte (scrub s) b).2 = (processByte s b).2 := by
  unfold processByte scrub
  dsimp only
  split_ifs <;> simp_all

lemma scrub_feedByte (s : DecState) (b : Nat) :
    feedByte (scrub s) b = scrub (feedByte s b) := by
  obtain ⟨h1, h2⟩ := scrub_processByte { s with byteReg := b, skipBit := 8 } b
  show { (processByte (scrub { s with byteReg := b, skipBit := 8 }) b).1 with
         packetSync := (processByte (scrub { s with byteReg := b, skipBit := 8 }) b).2 }
      = scrub { (processByte { s with byteReg := b, skipBit := 8 } b).1 with
                packetSync := (processByte { s with byteReg := b, skipBit := 8 } b).2 }
  rw [h1, h2]
  rfl

lemma scrub_processBit (s : DecState) (b : Bool) :
    processBit (scrub s) b = scrub (processBit s b) := by
  unfold processBit scrub
  dsimp only
  split_ifs <;> first
  | exact scrub_feedByte s _
  | simp_all

lemma scrub_processBits (L : List Bool) :
    ∀ s : DecState, processBits (scrub s) L = scrub (processBits s L) := by
  induction L with
  | nil => exact fun s => rfl
  | cons b M ih =>
    intro s
    have h : processBits (scrub s) (b :: M) = processBits (processBit (scrub s) b) M := rfl
    rw [h, scrub_processBit s b, ih]
    rfl

/-- Claim C9: the decoder is a pure function of the bitstream (two runs
on the same input are the same run), and the verbose flag influences
only the diagnostic channel: runs under any two verbose settings have
identical packet outputs and identical states once diagnostics are
scrubbed away. -/
theorem decoder_deterministic_verbose_irrelevant (L : List Bool) (v1 v2 : Bool) :
    processBits (initState v1) L = processBits (initState v1) L ∧
    (processBits (initState v1) L).output = (processBits (initState v2) L).output ∧
    scrub (processBits (initState v1) L) = scrub (processBits (initState v2) L) := by
  have key : ∀ v : Bool, scrub (processBits (initState v) L) = processBits (initState false) L := by
    intro v
    rw [← scrub_processBits]
    rfl
  have h12 : scrub (processBits (initState v1) L) = scrub (processBits (initState v2) L) := by
    rw [key v1, key v2]
  refine ⟨rfl, ?_, h12⟩
  have h3 := congrArg DecState.output h12
  exact h3

lemma lor_shiftLeft_add (a b n : Nat) (hb : b < 2 ^ n) :
    (a <<< n) ||| b = a * 2 ^ n + b := by
  apply Nat.eq_of_testBit_eq
  intro i
  rw [Nat.testBit_lor, Nat.shiftLeft_eq]
  by_cases h : i < n
  · have hge : (a * 2 ^ n).testBit i = false := by
      rw [Nat.testBit_to_div_mod]
      have hpow : (2:Nat) ^ n = 2 * 2 ^ (n - i - 1) * 2 ^ i := by
        rw [← pow_succ', ← pow_add]
        congr 1
        omega
      have h1 : a * 2 ^ n = 2 * (a * 2 ^ (n - i - 1)) * 2 ^ i := by
        rw [hpow]
        ring
      rw [h1, Nat.mul_div_cancel _ (Nat.pos_pow_of_pos i (by norm_num))]
      simp [Nat.mul_mod_right]
    rw [hge, Bool.false_or]
    rw [Nat.testBit_to_div_mod, Nat.testBit_to_div_mod]
    have hdm : (a * 2 ^ n + b) / 2 ^ i % 2 = b / 2 ^ i % 2 := by
      have h1 : a * 2 ^ n + b = b + 2 ^ i * (2 * (a * 2 ^ (n - i - 1))) := by
        have : (2:Nat) ^ n = 2 ^ i * 2 ^ (n - i - 1) * 2 := by
          rw [mul_assoc, ← pow_succ, ← pow_add]
          congr 1
          omega
        rw [this]
        ring
      rw [h1, Nat.add_mul_div_left _ _ (Nat.pos_pow_of_pos i (by norm_num))]
      omega
    rw [hdm]
  · have hbf : b.testBit i = false :=
      Nat.testBit_eq_false_of_lt
        (lt_of_lt_of_le hb (Nat.pow_le_pow_right (by norm_num) (by omega)))
    rw [hbf, Bool.or_false]
    rw [Nat.testBit_to_div_mod, Nat.testBit_to_div_mod]
    have h1 : (2:Nat) ^ i = 2 ^ n * 2 ^ (i - n) := by
      rw [← pow_add]
      congr 1
      omega
    have hdm : (a * 2 ^ n + b) / 2 ^ i = a / 2 ^ (i - n) := by
      rw [h1, ← Nat.div_div_eq_div_mul]
      congr 1
      rw [mul_comm, Nat.add_comm, Nat.add_mul_div_left _ _ (Nat.pos_pow_of_pos n (by norm_num)),
          Nat.div_eq_of_lt hb]
      omega
    have hdm2 : a * 2 ^ n / 2 ^ i = a / 2 ^ (i - n) := by
      rw [h1, ← Nat.div_div_eq_div_mul]
      congr 1
      rw [mul_comm, Nat.mul_div_cancel_left _ (Nat.pos_pow_of_pos n (by norm_num))]
    rw [hdm, hdm2]

/-- The value obtained by shifting the bits of `L` into an accumulator,
most significant bit first, without any width truncation. -/
def pushBits (a : Nat) (L : List Bool) : Nat :=
  L.foldl (fun x c => 2 * x + (if c then 1 else 0)) a

lemma bitsLE_length (n v : Nat) : (bitsLE n v).length = n := by
  induction n generalizing v with
  | zero => rfl
  | succ m ih => simp [bitsLE, ih]

lemma pushBits_append (a : Nat) (L M : List Bool) :
    pushBits a (L ++ M) = pushBits (pushBits a L) M := by
  unfold pushBits
  rw [List.foldl_append]

lemma mod_two_pow_succ_bottom (v n : Nat) :
    v % 2 ^ (n + 1) = 2 * (v / 2 % 2 ^ n) + v % 2 := by
  have key : ∀ q r m : Nat, r < 2 → 0 < m → (2 * q + r) % (2 * m) = 2 * (q % m) + r := by
    intro q r m hr hm
    have h2 : 2 * q + r = (2 * m) * (q / m) + (2 * (q % m) + r) := by
      have := Nat.div_add_mod q m
      ring_nf
      omega
    rw [h2, Nat.mul_add_mod]
    exact Nat.mod_eq_of_lt (by have := Nat.mod_lt q hm; omega)
  have h1 : v = 2 * (v / 2) + v % 2 := by omega
  have h2 : (2:Nat) ^ (n + 1) = 2 * 2 ^ n := by rw [pow_succ']
  rw [h2]
  conv =>
    lhs
    rw [h1]
  exact key (v / 2) (v % 2) (2 ^ n) (by omega) (Nat.pos_pow_of_pos n (by norm_num))

lemma pushBits_bitsLE (n : Nat) :
    ∀ (v a : Nat), pushBits a ((bitsLE n v).reverse) = a * 2 ^ n + v % 2 ^ n := by
  induction n with
  | zero =>
    intro v a
    simp [bitsLE, pushBits, Nat.mod_one]
  | succ m ih =>
    intro v a
    have hsplit : (bitsLE (m + 1) v).reverse
        = (bitsLE m (v / 2)).reverse ++ [decide (v % 2 = 1)] := by
      rw [show bitsLE (m + 1) v = decide (v % 2 = 1) :: bitsLE m (v / 2) from rfl,
          List.reverse_cons]
    rw [hsplit, pushBits_append, ih]
    have hstep : pushBits (a * 2 ^ m + v / 2 % 2 ^ m) [decide (v % 2 = 1)]
        = 2 * (a * 2 ^ m + v / 2 % 2 ^ m) + v % 2 := by
      unfold pushBits
      rcases Nat.mod_two_eq_zero_or_one v with h2 | h2 <;> simp [h2]
    rw [hstep, mod_two_pow_succ_bottom, pow_succ]
    ring

lemma shiftIn8_eq (v : Nat) (c : Bool) :
    shiftIn8 v c = (2 * v + (if c then 1 else 0)) % 256 := by
  unfold shiftIn8
  rw [lor_shiftLeft_add v _ 1 (by split <;> norm_num)]
  congr 1
  rw [pow_one]
  ring

lemma pushBits_congr_mod (L : List Bool) :
    ∀ a b : Nat, a % 256 = b % 256 → pushBits a L % 256 = pushBits b L % 256 := by
  induction L with
  | nil => exact fun a b h => h
  | cons c M ih =>
    intro a b h
    show pushBits (2 * a + (if c then 1 else 0)) M % 256
        = pushBits (2 * b + (if c then 1 else 0)) M % 256
    exact ih _ _ (by omega)

lemma foldl_shiftIn8 (L : List Bool) :
    ∀ a : Nat, a < 256 → L.foldl shiftIn8 a = pushBits a L % 256 := by
  induction L with
  | nil =>
    intro a ha
    exact (Nat.mod_eq_of_lt ha).symm
  | cons c M ih =>
    intro a ha
    show M.foldl shiftIn8 (shiftIn8 a c) = pushBits a (c :: M) % 256
    rw [ih (shiftIn8 a c) (by unfold shiftIn8; omega)]
    show pushBits (shiftIn8 a c) M % 256 = pushBits (2 * a + (if c then 1 else 0)) M % 256
    exact pushBits_congr_mod M _ _ (by rw [shiftIn8_eq]; omega)

lemma foldl_shiftIn8_bits8 (b a : Nat) (ha : a < 256) (hb : b < 256) :
    (bits8 b).foldl shiftIn8 a = b := by
  rw [foldl_shiftIn8 _ a ha]
  unfold bits8
  rw [pushBits_bitsLE]
  omega

lemma foldl_last_lt (Q : List Nat) :
    ∀ a : Nat, a < 256 → (∀ b ∈ Q, b < 256) → Q.foldl (fun _ b => b) a < 256 := by
  induction Q with
  | nil => exact fun a ha _ => ha
  | cons b R ih =>
    intro a ha hQ
    exact ih b (hQ b (by simp)) (fun x hx => hQ x (by simp [hx]))

lemma locked_run_mid (L : List Bool) :
    ∀ s : DecState, s.packetSync = true → (L.length : Int) < s.skipBit →
      processBits s L = { s with byteReg := L.foldl shiftIn8 s.byteReg,
                                 skipBit := s.skipBit - L.length } := by
  induction L with
  | nil =>
    intro s hps hlen
    cases s
    simp [processBits]
  | cons c M ih =>
    intro s hps hlen
    simp only [List.length_cons] at hlen
    push_cast at hlen
    have hc : ¬(s.skipBit - 1 < 1) := by omega
    have h1 : processBits s (c :: M) = processBits (processBit s c) M := rfl
    rw [h1, locked_step_mid s c hps hc,
        ih { s with byteReg := shiftIn8 s.byteReg c, skipBit := s.skipBit - 1 } hps
          (by show (M.length : Int) < s.skipBit - 1; omega)]
    simp only [DecState.mk.injEq, and_true, true_and]
    refine ⟨rfl, ?_⟩
    simp only [List.length_cons]
    push_cast
    ring

lemma locked_run_byte (s : DecState) (b : Nat) (hps : s.packetSync = true)
    (hsk : s.skipBit = 8) (ha : s.byteReg < 256) (hb : b < 256) :
    processBits s (bits8 b) = feedByte s b := by
  have hsplit : bits8 b = (bitsLE 7 (b / 2)).reverse ++ [decide (b % 2 = 1)] := by
    rw [bits8, show bitsLE 8 b = decide (b % 2 = 1) :: bitsLE 7 (b / 2) from rfl,
        List.reverse_cons]
  have hlen7 : ((bitsLE 7 (b / 2)).reverse.length : Int) = 7 := by
    rw [List.length_reverse, bitsLE_length]
    norm_num
  have happ : processBits s ((bitsLE 7 (b / 2)).reverse ++ [decide (b % 2 = 1)])
      = processBit (processBits s ((bitsLE 7 (b / 2)).reverse)) (decide (b % 2 = 1)) := by
    unfold processBits
    rw [List.foldl_append]
    rfl
  rw [hsplit, happ, locked_run_mid _ s hps (by rw [hlen7, hsk]; norm_num)]
  rw [locked_step_bytedone
        { s with byteReg := (bitsLE 7 (b / 2)).reverse.foldl shiftIn8 s.byteReg,
                 skipBit := s.skipBit - ((bitsLE 7 (b / 2)).reverse.length : Int) }
        (decide (b % 2 = 1)) hps
        (by show s.skipBit - ((bitsLE 7 (b / 2)).reverse.length : Int) - 1 < 1
            rw [hlen7, hsk]
            norm_num)]
  have hbyte : shiftIn8 ((bitsLE 7 (b / 2)).reverse.foldl shiftIn8 s.byteReg)
      (decide (b % 2 = 1)) = b := by
    have h := foldl_shiftIn8_bits8 b s.byteReg ha hb
    rw [hsplit, List.foldl_append] at h
    simpa using h
  show feedByte _ (shiftIn8 ((bitsLE 7 (b / 2)).reverse.foldl shiftIn8 s.byteReg)
        (decide (b % 2 = 1))) = feedByte s b
  rw [hbyte]
  rfl

lemma feed_len (s : DecState) (p : Nat) (hlen : s.len = -1) (hp : (p : Int) ≤ 254) :
    feedByte s p
      = { s with
          byteReg := p, skipBit := 8, packetSync := true,
          len := (p : Int),
          computedCrc := crc_xmodem_update s.computedCrc p,
          diags := if s.verbose then s.diags + 1 else s.diags } := by
  unfold feedByte processByte
  dsimp only
  rw [if_pos hlen, if_pos (show (p : Int) ≤ 255 - 1 by omega)]

lemma feed_data (s : DecState) (b p : Nat) (hlen : s.len = (p : Int))
    (hoff : (s.offset : Int) < (p : Int)) :
    feedByte s b
      = { s with
          byteReg := b, skipBit := 8, packetSync := true,
          buffer := Function.update s.buffer s.offset b,
          writes := s.writes ++ [s.offset],
          offset := s.offset + 1,
          computedCrc := crc_xmodem_update s.computedCrc b } := by
  unfold feedByte processByte
  dsimp only
  rw [if_neg (show ¬(s.len = -1) by rw [hlen]; omega),
      if_pos (show ((s.offset : Int)) < s.len by rw [hlen]; exact hoff)]

lemma feed_crchi (s : DecState) (b p : Nat) (hlen : s.len = (p : Int))
    (hoff : s.offset = p) :
    feedByte s b
      = { s with
          byteReg := b, skipBit := 8, packetSync := true,
          readCrc := (s.readCrc ||| ((b % 65536) <<< 8)) % 65536,
          offset := s.offset + 1 } := by
  unfold feedByte processByte
  dsimp only
  rw [if_neg (show ¬(s.len = -1) by rw [hlen]; omega),
      if_neg (show ¬((s.offset : Int) < s.len) by rw [hlen, hoff]; omega),
      if_pos (show ((s.offset : Int)) = s.len by rw [hlen, hoff])]

lemma feed_crclo (s : DecState) (b p : Nat) (hlen : s.len = (p : Int))
    (hoff : s.offset = p + 1) :
    feedByte s b =
      if s.computedCrc = 0xffff - ((s.readCrc ||| b) % 65536) then
        { s with
          byteReg := b, skipBit := 8, packetSync := false,
          readCrc := 0xffff - ((s.readCrc ||| b) % 65536),
          output := s.output ++ [(List.range p).map s.buffer] }
      else
        { s with
          byteReg := b, skipBit := 8, packetSync := false,
          readCrc := 0xffff - ((s.readCrc ||| b) % 65536),
          diags := if s.verbose then s.diags + 1 else s.diags } := by
  unfold feedByte processByte
  dsimp only
  rw [if_neg (show ¬(s.len = -1) by rw [hlen]; omega),
      if_neg (show ¬((s.offset : Int) < s.len) by rw [hlen, hoff]; push_cast; omega),
      if_neg (show ¬((s.offset : Int) = s.len) by rw [hlen, hoff]; push_cast; omega),
      if_pos (show ((s.offset : Int)) = s.len + 1 by rw [hlen, hoff]; push_cast; ring)]
  by_cases hcrc : s.computedCrc = 0xffff - ((s.readCrc ||| b) % 65536)
  · rw [if_pos hcrc, if_pos hcrc]
    simp only [hlen, Int.toNat_natCast]
  · rw [if_neg hcrc, if_neg hcrc]

lemma run_data (Q : List Nat) :
    ∀ (s : DecState) (p : Nat), s.packetSync = true → s.skipBit = 8 →
      s.byteReg < 256 → s.len = (p : Int) →
      s.offset + Q.length = p → (∀ b ∈ Q, b < 256) →
      processBits s (bytesBits Q)
        = { s with
            byteReg := Q.foldl (fun _ b => b) s.byteReg,
            packetSync := true, skipBit := 8,
            offset := p,
            computedCrc := crcBytes s.computedCrc Q,
            buffer := storeBytes s.buffer s.offset Q,
            writes := s.writes ++ List.range' s.offset Q.length } := by
  induction Q with
  | nil =>
    intro s p hps hsk hbr hlen hoff hb
    cases s
    simp only [List.length_nil, Nat.add_zero] at hoff
    subst hps
    subst hsk
    subst hoff
    simp [processBits, bytesBits, storeBytes, crcBytes, List.range']
  | cons b R ih =>
    intro s p hps hsk hbr hlen hoff hb
    simp only [List.length_cons] at hoff
    have hcons : bytesBits (b :: R) = bits8 b ++ bytesBits R := List.flatMap_cons b R bits8
    have happ : processBits s (bits8 b ++ bytesBits R)
        = processBits (processBits s (bits8 b)) (bytesBits R) := by
      unfold processBits
      rw [List.foldl_append]
    rw [hcons, happ, locked_run_byte s b hps hsk hbr (hb b (by simp)),
        feed_data s b p hlen (by push_cast; omega)]
    rw [ih { s with
             byteReg := b, skipBit := 8, packetSync := true,
             buffer := Function.update s.buffer s.offset b,
             writes := s.writes ++ [s.offset],
             offset := s.offset + 1,
             computedCrc := crc_xmodem_update s.computedCrc b } p
          rfl rfl (hb b (by simp)) hlen (by show s.offset + 1 + R.length = p; omega)
          (fun x hx => hb x (by simp [hx]))]
    simp only [DecState.mk.injEq, and_true, true_and]
    refine ⟨rfl, ?_⟩
    rw [List.append_assoc, List.singleton_append, List.length_cons, List.range'_succ]
    exact ⟨rfl, rfl, rfl⟩

/-- The decoder state right after the sync word has been recognised from
the initial state: Locked, packet state freshly reset. -/
def syncedState (v : Bool) : DecState :=
  { syncBuffer := SYNC_WORD, byteReg := 0, packetSync := true, len := -1, offset := 0,
    computedCrc := 0x1D0F, readCrc := 0, buffer := fun _ => 0, skipBit := 8,
    verbose := v, output := [], diags := if v then 1 else 0, writes := [] }

lemma sync_phase (v : Bool) :
    processBits (initState v) (bits16 SYNC_WORD) = syncedState v := by
  cases v <;> rfl

lemma processBits_append (s : DecState) (A B : List Bool) :
    processBits s (A ++ B) = processBits (processBits s A) B := by
  unfold processBits
  rw [List.foldl_append]

lemma storeBytes_apply_lt (Q : List Nat) :
    ∀ (buf : Nat → Nat) (i j : Nat), j < i → storeBytes buf i Q j = buf j := by
  induction Q with
  | nil => intro buf i j _; rfl
  | cons b R ih =>
    intro buf i j h
    show storeBytes (Function.update buf i b) (i + 1) R j = buf j
    rw [ih _ _ _ (by omega), Function.update_noteq (by omega)]

lemma storeBytes_readback (Q : List Nat) :
    ∀ (buf : Nat → Nat) (i : Nat),
      (List.range' i Q.length).map (storeBytes buf i Q) = Q := by
  induction Q with
  | nil => intro buf i; rfl
  | cons b R ih =>
    intro buf i
    show (List.range' i (R.length + 1)).map (storeBytes (Function.update buf i b) (i + 1) R)
        = b :: R
    rw [List.range'_succ, List.map_cons, storeBytes_apply_lt R _ _ _ (by omega),
        Function.update_same, ih]

lemma raw_compose (raw : Nat) (hraw : raw < 65536) :
    (((0 ||| ((raw / 256 % 65536) <<< 8)) % 65536) ||| (raw % 256)) % 65536 = raw := by
  have h1 : raw / 256 % 65536 = raw / 256 := by omega
  have h2 : (0:Nat) ||| ((raw / 256) <<< 8) = (raw / 256) <<< 8 := Nat.zero_or _
  have h3 : ((raw / 256) <<< 8) % 65536 = (raw / 256) <<< 8 := by
    rw [Nat.shiftLeft_eq]
    have h4 : (2:Nat) ^ 8 = 256 := by norm_num
    rw [h4]
    omega
  rw [h1, h2, h3, lor_shiftLeft_add _ _ 8 (by
    have h4 : (2:Nat) ^ 8 = 256 := by norm_num
    rw [h4]
    omega)]
  have h4 : (2:Nat) ^ 8 = 256 := by norm_num
  rw [h4]
  omega

lemma decode_characterization (p : Nat) (Q : List Nat) (raw : Nat)
    (hp : p ≤ 254) (hQ : Q.length = p) (hb : ∀ b ∈ Q, b < 256) (hraw : raw < 65536) :
    (processBits (initState false) (encodeWith p Q raw)).output
        = (if crcBytes 0x1D0F (p :: Q) = 0xffff - raw then [Q] else []) ∧
    (processBits (initState false) (encodeWith p Q raw)).packetSync = false := by
  have e0 : processBits (initState false) (encodeWith p Q raw)
      = processBits (processBits (processBits (processBits (processBits (initState false)
          (bits16 SYNC_WORD)) (bits8 p)) (bytesBits Q)) (bits8 (raw / 256)))
          (bits8 (raw % 256)) := by
    unfold encodeWith
    rw [processBits_append, processBits_append, processBits_append, processBits_append]
  rw [e0, sync_phase false,
      locked_run_byte (syncedState false) p rfl rfl (by show (0:Nat) < 256; norm_num) (by omega),
      feed_len (syncedState false) p rfl (by omega)]
  set s1 : DecState :=
    { syncedState false with
      byteReg := p, skipBit := 8, packetSync := true,
      len := (p : Int),
      computedCrc := crc_xmodem_update (syncedState false).computedCrc p,
      diags := if (syncedState false).verbose then (syncedState false).diags + 1
               else (syncedState false).diags } with hs1
  rw [run_data Q s1 p rfl rfl (by show p < 256; omega) rfl
        (by show 0 + Q.length = p; omega) hb]
  set s2 : DecState :=
    { s1 with
      byteReg := Q.foldl (fun _ b => b) s1.byteReg,
      packetSync := true, skipBit := 8,
      offset := p,
      computedCrc := crcBytes s1.computedCrc Q,
      buffer := storeBytes s1.buffer s1.offset Q,
      writes := s1.writes ++ List.range' s1.offset Q.length } with hs2
  rw [locked_run_byte s2 (raw / 256) rfl rfl
        (by show Q.foldl (fun _ b => b) s1.byteReg < 256
            exact foldl_last_lt Q p (by show p < 256; omega) hb)
        (by omega),
      feed_crchi s2 (raw / 256) p rfl rfl]
  set s3 : DecState :=
    { s2 with
      byteReg := raw / 256, skipBit := 8, packetSync := true,
      readCrc := (s2.readCrc ||| ((raw / 256 % 65536) <<< 8)) % 65536,
      offset := s2.offset + 1 } with hs3
  rw [locked_run_byte s3 (raw % 256) rfl rfl (by show raw / 256 < 256; omega) (by omega),
      feed_crclo s3 (raw % 256) p rfl rfl]
  have hread : (s3.readCrc ||| raw % 256) % 65536 = raw := by
    show (((0 ||| ((raw / 256 % 65536) <<< 8)) % 65536) ||| (raw % 256)) % 65536 = raw
    exact raw_compose raw hraw
  have hcc : s3.computedCrc = crcBytes 0x1D0F (p :: Q) := rfl
  rw [hread, hcc]
  by_cases hcrc : crcBytes 0x1D0F (p :: Q) = 0xffff - raw
  · rw [if_pos hcrc, if_pos hcrc]
    constructor
    · show s3.output ++ [(List.range p).map s3.buffer] = [Q]
      have hbuf : (List.range p).map s3.buffer = Q := by
        show (List.range p).map (storeBytes (fun _ => 0) 0 Q) = Q
        rw [List.range_eq_range', ← hQ, storeBytes_readback]
      rw [hbuf]
      show ([] : List (List Nat)) ++ [Q] = [Q]
      simp
    · rfl
  · rw [if_neg hcrc, if_neg hcrc]
    exact ⟨rfl, rfl⟩

lemma output_initState_v (L : List Bool) (v : Bool) :
    (processBits (initState v) L).output = (processBits (initState false) L).output := by
  have key : scrub (processBits (initState v) L) = processBits (initState false) L := by
    rw [← scrub_processBits]
    rfl
  have h := congrArg DecState.output key
  exact h

/-- Claim C1: feeding the decoder, from its initial Searching state, the
bitstream made of the sync word, the length byte, a payload `P` of at
most 254 bytes, and the two bytes of the bitwise-complemented CRC16
(seed `0x1D0F`) over length-then-payload, makes it emit exactly the
payload `P`, exactly once. -/
theorem decoder_emits_valid_payload_once (P : List Nat) (v : Bool)
    (hlen : P.length ≤ 254) (hb : ∀ b ∈ P, b < 256) :
    (processBits (initState v)
        (encodeWith P.length P (0xffff - crcBytes 0x1D0F (P.length :: P)))).output
      = [P] := by
  have hC : crcBytes 0x1D0F (P.length :: P) < 65536 := crcBytes_lt _ _ (by norm_num)
  rw [output_initState_v]
  have h := (decode_characterization P.length P (0xffff - crcBytes 0x1D0F (P.length :: P))
      hlen rfl hb (by omega)).1
  rw [h, if_pos (by omega)]

/-- Witness for C1: the spec's own example, payload `ABC`. -/
theorem decoder_emits_valid_payload_once_witness :
    (processBits (initState false)
        (encodeWith 3 [65, 66, 67] (0xffff - crcBytes 0x1D0F [3, 65, 66, 67]))).output
      = [[65, 66, 67]] := by
  have h := decoder_emits_valid_payload_once [65, 66, 67] false (by decide) (by decide)
  exact h

lemma and_high_arith (x : Nat) (hx : x < 65536) : (x &&& 0x8000 ≠ 0) ↔ 32768 ≤ x := by
  rw [and_high_bit, Nat.testBit_to_div_mod]
  have h15 : (2:Nat) ^ 15 = 32768 := by norm_num
  rw [h15]
  simp only [decide_eq_true_eq]
  omega

lemma shiftIn_one (z : Nat) : z <<< 1 = z * 2 := by
  rw [Nat.shiftLeft_eq, pow_one]

lemma xor_parity (a b : Nat) : (a ^^^ b) % 2 = (a % 2) ^^^ (b % 2) := by
  have h := xor_mod_two_pow a b 1
  simpa using h

lemma xor_cancel_right (u w k : Nat) (h : u ^^^ k = w ^^^ k) : u = w := by
  have h2 := congrArg (fun z => z ^^^ k) h
  simpa [Nat.xor_assoc, Nat.xor_self, Nat.xor_zero] using h2

lemma xor_cancel_left (c x y : Nat) (h : c ^^^ x = c ^^^ y) : x = y := by
  have h2 := congrArg (fun z => c ^^^ z) h
  simpa [← Nat.xor_assoc, Nat.xor_self, Nat.zero_xor] using h2

lemma crcStep_inj (x y : Nat) (hx : x < 65536) (hy : y < 65536)
    (h : crcStep x = crcStep y) : x = y := by
  have h16 : (65536:Nat) = 2 ^ 16 := by norm_num
  unfold crcStep at h
  by_cases cx : x &&& 0x8000 ≠ 0 <;> by_cases cy : y &&& 0x8000 ≠ 0
  · rw [if_pos cx, if_pos cy] at h
    rw [h16, xor_mod_two_pow, xor_mod_two_pow] at h
    have hk : (0x1021:Nat) % 2 ^ 16 = 0x1021 := by norm_num
    rw [hk] at h
    have h2 := xor_cancel_right _ _ _ h
    rw [shiftIn_one, shiftIn_one] at h2
    have hxx := (and_high_arith x hx).mp cx
    have hyy := (and_high_arith y hy).mp cy
    have h216 : (2:Nat) ^ 16 = 65536 := by norm_num
    rw [h216] at h2
    omega
  · rw [if_pos cx, if_neg cy] at h
    exfalso
    have hodd : ((x <<< 1 ^^^ 0x1021) % 65536) % 2 = 1 := by
      rw [Nat.mod_mod_of_dvd _ (show (2:Nat) ∣ 65536 by norm_num), xor_parity, shiftIn_one]
      have hz : x * 2 % 2 = 0 := by omega
      rw [hz]
      rfl
    have heven : ((y <<< 1) % 65536) % 2 = 0 := by
      rw [Nat.mod_mod_of_dvd _ (show (2:Nat) ∣ 65536 by norm_num), shiftIn_one]
      omega
    rw [h] at hodd
    omega
  · rw [if_neg cx, if_pos cy] at h
    exfalso
    have hodd : ((y <<< 1 ^^^ 0x1021) % 65536) % 2 = 1 := by
      rw [Nat.mod_mod_of_dvd _ (show (2:Nat) ∣ 65536 by norm_num), xor_parity, shiftIn_one]
      have hz : y * 2 % 2 = 0 := by omega
      rw [hz]
      rfl
    have heven : ((x <<< 1) % 65536) % 2 = 0 := by
      rw [Nat.mod_mod_of_dvd _ (show (2:Nat) ∣ 65536 by norm_num), shiftIn_one]
      omega
    rw [← h] at hodd
    omega
  · rw [if_neg cx, if_neg cy] at h
    rw [shiftIn_one, shiftIn_one] at h
    have hxx : ¬(32768 ≤ x) := fun hc => cx ((and_high_arith x hx).mpr hc)
    have hyy : ¬(32768 ≤ y) := fun hc => cy ((and_high_arith y hy).mpr hc)
    omega

lemma crcStep_iterate_lt (n : Nat) : ∀ x : Nat, x < 65536 → crcStep^[n] x < 65536 := by
  induction n with
  | zero => exact fun x hx => hx
  | succ m ih =>
    intro x hx
    rw [Function.iterate_succ_apply']
    exact crcStep_lt _

lemma crcStep_iterate_inj (n : Nat) : ∀ x y : Nat, x < 65536 → y < 65536 →
    crcStep^[n] x = crcStep^[n] y → x = y := by
  induction n with
  | zero => exact fun x y _ _ h => h
  | succ m ih =>
    intro x y hx hy h
    rw [Function.iterate_succ_apply', Function.iterate_succ_apply'] at h
    exact ih x y hx hy
      (crcStep_inj _ _ (crcStep_iterate_lt m x hx) (crcStep_iterate_lt m y hy) h)

lemma crc_update_inj_crc (c1 c2 b : Nat) (h1 : c1 < 65536) (h2 : c2 < 65536)
    (h : crc_xmodem_update c1 b = crc_xmodem_update c2 b) : c1 = c2 := by
  unfold crc_xmodem_update at h
  have h16 : (65536:Nat) = 2 ^ 16 := by norm_num
  have hin := crcStep_iterate_inj 8 _ _
    (by rw [h16] at *; exact Nat.mod_lt _ (by norm_num))
    (by rw [h16] at *; exact Nat.mod_lt _ (by norm_num)) h
  rw [h16, xor_mod_two_pow, xor_mod_two_pow] at hin
  have hc1 : c1 % 2 ^ 16 = c1 := Nat.mod_eq_of_lt (by omega)
  have hc2 : c2 % 2 ^ 16 = c2 := Nat.mod_eq_of_lt (by omega)
  rw [hc1, hc2] at hin
  exact xor_cancel_right _ _ _ hin

lemma crc_update_inj_data (c b1 b2 : Nat) (hc : c < 65536) (hb1 : b1 < 256) (hb2 : b2 < 256)
    (h : crc_xmodem_update c b1 = crc_xmodem_update c b2) : b1 = b2 := by
  unfold crc_xmodem_update at h
  have h16 : (65536:Nat) = 2 ^ 16 := by norm_num
  have hin := crcStep_iterate_inj 8 _ _
    (by rw [h16] at *; exact Nat.mod_lt _ (by norm_num))
    (by rw [h16] at *; exact Nat.mod_lt _ (by norm_num)) h
  rw [h16, xor_mod_two_pow, xor_mod_two_pow] at hin
  have h216 : (2:Nat) ^ 16 = 65536 := by norm_num
  have hc1 : c % 2 ^ 16 = c := Nat.mod_eq_of_lt (by omega)
  have hm1 : b1 % 2 ^ 16 = b1 := Nat.mod_eq_of_lt (by omega)
  have hm2 : b2 % 2 ^ 16 = b2 := Nat.mod_eq_of_lt (by omega)
  have hs1 : (b1 <<< 8) % 2 ^ 16 = b1 <<< 8 := by
    rw [Nat.shiftLeft_eq]
    have : (2:Nat) ^ 8 = 256 := by norm_num
    rw [this]
    apply Nat.mod_eq_of_lt
    have : (2:Nat) ^ 16 = 65536 := by norm_num
    rw [this]
    omega
  have hs2 : (b2 <<< 8) % 2 ^ 16 = b2 <<< 8 := by
    rw [Nat.shiftLeft_eq]
    have : (2:Nat) ^ 8 = 256 := by norm_num
    rw [this]
    apply Nat.mod_eq_of_lt
    have : (2:Nat) ^ 16 = 65536 := by norm_num
    rw [this]
    omega
  rw [hm1, hm2, hc1, hs1, hs2] at hin
  have h3 := xor_cancel_left _ _ _ hin
  rw [Nat.shiftLeft_eq, Nat.shiftLeft_eq] at h3
  have h28 : (2:Nat) ^ 8 = 256 := by norm_num
  rw [h28] at h3
  omega

lemma crcBytes_inj_seed (R : List Nat) : ∀ c1 c2 : Nat, c1 < 65536 → c2 < 65536 →
    c1 ≠ c2 → crcBytes c1 R ≠ crcBytes c2 R := by
  induction R with
  | nil => exact fun c1 c2 _ _ hne => hne
  | cons b S ih =>
    intro c1 c2 h1 h2 hne
    show crcBytes (crc_xmodem_update c1 b) S ≠ crcBytes (crc_xmodem_update c2 b) S
    exact ih _ _ (crc_xmodem_update_lt c1 b) (crc_xmodem_update_lt c2 b)
      (fun he => hne (crc_update_inj_crc c1 c2 b h1 h2 he))

lemma crcBytes_ne_of_set (L : List Nat) : ∀ (j b c : Nat) (hj : j < L.length),
    (∀ x ∈ L, x < 256) → b < 256 → b ≠ L.get ⟨j, hj⟩ → c < 65536 →
    crcBytes c (L.set j b) ≠ crcBytes c L := by
  induction L with
  | nil =>
    intro j b c hj
    exact absurd hj (by simp)
  | cons a R ih =>
    intro j b c hj hL hb hne hc
    cases j with
    | zero =>
      show crcBytes (crc_xmodem_update c b) R ≠ crcBytes (crc_xmodem_update c a) R
      apply crcBytes_inj_seed R _ _ (crc_xmodem_update_lt c b) (crc_xmodem_update_lt c a)
      intro he
      exact hne (crc_update_inj_data c b a hc hb (hL a (by simp)) he)
    | succ i =>
      show crcBytes (crc_xmodem_update c a) (R.set i b)
          ≠ crcBytes (crc_xmodem_update c a) R
      exact ih i b _ (by simpa using hj) (fun x hx => hL x (by simp [hx])) hb
        hne (crc_xmodem_update_lt c a)

lemma xor_pow_ne (x k : Nat) (hk : k ≠ 0) : x ^^^ k ≠ x := by
  intro he
  have h3 : x ^^^ (x ^^^ k) = x ^^^ x := by rw [he]
  rw [← Nat.xor_assoc, Nat.xor_self, Nat.zero_xor] at h3
  exact hk h3

/-- Claim C8: starting from a valid encoding of payload `P`, flipping
any single bit of the payload portion (bit `r` of payload byte `i`)
while transmitting the CRC bytes computed from the original `P` makes
the decoder emit nothing for that attempt. -/
theorem single_bit_flip_suppresses_emission (P : List Nat) (v : Bool) (i r : Nat)
    (hlen : P.length ≤ 254) (hb : ∀ b ∈ P, b < 256)
    (hi : i < P.length) (hr : r < 8) :
    (processBits (initState v)
        (encodeWith P.length (P.set i (P.get ⟨i, hi⟩ ^^^ (1 <<< r)))
          (0xffff - crcBytes 0x1D0F (P.length :: P)))).output
      = [] := by
  have hC : crcBytes 0x1D0F (P.length :: P) < 65536 := crcBytes_lt _ _ (by norm_num)
  have hgl : P.get ⟨i, hi⟩ < 256 := hb _ (List.get_mem P i hi)
  have hshift : (1 <<< r) < 256 := by
    rw [Nat.shiftLeft_eq, one_mul]
    calc 2 ^ r < 2 ^ 8 := Nat.pow_lt_pow_right (by norm_num) hr
    _ = 256 := by norm_num
  have hb' : (P.get ⟨i, hi⟩ ^^^ (1 <<< r)) < 256 := by
    have h8 : (256:Nat) = 2 ^ 8 := by norm_num
    rw [h8] at hgl hshift ⊢
    exact Nat.xor_lt_two_pow hgl hshift
  have hQlen : (P.set i (P.get ⟨i, hi⟩ ^^^ (1 <<< r))).length = P.length :=
    List.length_set P i _
  have hQb : ∀ x ∈ P.set i (P.get ⟨i, hi⟩ ^^^ (1 <<< r)), x < 256 := by
    intro x hx
    rcases List.mem_or_eq_of_mem_set hx with hx | rfl
    · exact hb x hx
    · exact hb'
  have hflip : (P.get ⟨i, hi⟩ ^^^ (1 <<< r)) ≠ P.get ⟨i, hi⟩ :=
    xor_pow_ne _ _ (by rw [Nat.shiftLeft_eq, one_mul]
                       exact (Nat.pos_pow_of_pos r (by norm_num)).ne')
  have hcrcne : crcBytes 0x1D0F (P.length :: P.set i (P.get ⟨i, hi⟩ ^^^ (1 <<< r)))
      ≠ crcBytes 0x1D0F (P.length :: P) := by
    have hset : P.length :: P.set i (P.get ⟨i, hi⟩ ^^^ (1 <<< r))
        = (P.length :: P).set (i + 1) (P.get ⟨i, hi⟩ ^^^ (1 <<< r)) := rfl
    rw [hset]
    exact crcBytes_ne_of_set (P.length :: P) (i + 1) _ 0x1D0F (by simp; omega)
      (by
        intro x hx
        rcases List.mem_cons.mp hx with rfl | hx
        · omega
        · exact hb x hx)
      hb' hflip (by norm_num)
  rw [output_initState_v]
  have h := (decode_characterization P.length (P.set i (P.get ⟨i, hi⟩ ^^^ (1 <<< r)))
      (0xffff - crcBytes 0x1D0F (P.length :: P)) hlen hQlen hQb (by omega)).1
  rw [h, if_neg ?_]
  have he : 0xffff - (0xffff - crcBytes 0x1D0F (P.length :: P))
      = crcBytes 0x1D0F (P.length :: P) := by omega
  rw [he]
  exact hcrcne

/-- Witness for C8: flipping the low bit of the first payload byte of
the `ABC` example suppresses the packet. -/
theorem single_bit_flip_suppresses_emission_witness :
    (processBits (initState false)
        (encodeWith 3 ([65, 66, 67].set 0 (65 ^^^ 1))
          (0xffff - crcBytes 0x1D0F [3, 65, 66, 67]))).output
      = [] := by
  have h := single_bit_flip_suppresses_emission [65, 66, 67] false 0 0
    (by decide) (by decide) (by decide) (by decide)
  exact h

/-- State of the bit slicer in `main`: the moving threshold (an
`int16_t`) and the sample countdown `skipSamples`. -/
structure SlicerState where
  threshold : Int
  skipSamples : Int

/-- Store a signed 16-bit value: wrap into `[-32768, 32767]`. -/
def wrap16s (x : Int) : Int := (x + 32768) % 65536 - 32768

/-- One iteration of the sample loop in `main`: the threshold update
`threshold = (sample + (8 * downSamples - 1) * threshold) / (8 * downSamples)`
(C integer division truncates toward zero, hence `Int.tdiv`) runs on
every sample; the countdown is decremented, and when it falls below 1 it
is reset to `downSamples` and one bit `sample > threshold` is decided. -/
def slicerStep (downSamples : Nat) (st : SlicerState) (sample : Int) :
    SlicerState × Option Bool :=
  let threshold := wrap16s (Int.tdiv (sample + (8 * downSamples - 1) * st.threshold)
    (8 * downSamples))
  if st.skipSamples - 1 < 1 then
    (⟨threshold, (downSamples : Int)⟩, some (decide (sample > threshold)))
  else
    (⟨threshold, st.skipSamples - 1⟩, none)

/-- Run the slicer over a list of samples, collecting the emitted bits. -/
def slicerRun (D : Nat) (st : SlicerState) : List Int → SlicerState × List Bool
  | [] => (st, [])
  | s :: L =>
    let r := slicerStep D st s
    let rest := slicerRun D r.1 L
    (rest.1, (match r.2 with | some b => [b] | none => []) ++ rest.2)

/-- The threshold after a list of samples. -/
def thrFold (D : Nat) (t : Int) (L : List Int) : Int :=
  L.foldl (fun t s => wrap16s (Int.tdiv (s + (8 * D - 1) * t) (8 * D))) t

lemma slicerStep_threshold (D : Nat) (st : SlicerState) (s : Int) :
    (slicerStep D st s).1.threshold
      = wrap16s (Int.tdiv (s + (8 * D - 1) * st.threshold) (8 * D)) := by
  unfold slicerStep
  split <;> rfl

lemma tdiv_bounds (n d k m : Int) (hd : 0 < d) (hk : 0 ≤ k) (hm : 0 ≤ m)
    (hlow : -(d * k) ≤ n) (hhigh : n ≤ d * m) :
    -k ≤ Int.tdiv n d ∧ Int.tdiv n d ≤ m := by
  rcases le_or_lt 0 n with hn | hn
  · rw [Int.tdiv_eq_ediv hn (le_of_lt hd)]
    constructor
    · calc -k ≤ 0 := by omega
        _ ≤ n / d := Int.ediv_nonneg hn (le_of_lt hd)
    · calc n / d ≤ (d * m) / d := Int.ediv_le_ediv hd hhigh
        _ = m := Int.mul_ediv_cancel_left m (ne_of_gt hd)
  · have h1 : Int.tdiv n d = -(Int.tdiv (-n) d) := by
      have h2 := Int.neg_tdiv (-n) d
      simpa using h2.symm
    rw [h1]
    have hpos : (0:Int) ≤ -n := by omega
    rw [Int.tdiv_eq_ediv hpos (le_of_lt hd)]
    constructor
    · have h2 : (-n) / d ≤ k := by
        calc (-n) / d ≤ (d * k) / d := Int.ediv_le_ediv hd (by omega)
          _ = k := Int.mul_ediv_cancel_left k (ne_of_gt hd)
      omega
    · have h2 : (0:Int) ≤ (-n) / d := Int.ediv_nonneg hpos (le_of_lt hd)
      omega

lemma slicerStep_threshold_in_range (D : Nat) (st : SlicerState) (s : Int)
    (hD : 2 ≤ D) (hs1 : -32768 ≤ s) (hs2 : s ≤ 32767)
    (ht1 : -32768 ≤ st.threshold) (ht2 : st.threshold ≤ 32767) :
    (slicerStep D st s).1.threshold
      = Int.tdiv (s + (8 * D - 1) * st.threshold) (8 * D) := by
  rw [slicerStep_threshold]
  have hD2 : (2:Int) ≤ (D:Int) := by exact_mod_cast hD
  have hd : (0:Int) < 8 * D := by omega
  have h0 : (0:Int) ≤ 8 * (D:Int) - 1 := by omega
  have hmul1 : (8 * (D:Int) - 1) * (-32768) ≤ (8 * D - 1) * st.threshold :=
    mul_le_mul_of_nonneg_left ht1 h0
  have hmul2 : (8 * (D:Int) - 1) * st.threshold ≤ (8 * D - 1) * 32767 :=
    mul_le_mul_of_nonneg_left ht2 h0
  have hlow : -((8 * (D:Int)) * 32768) ≤ s + (8 * D - 1) * st.threshold := by
    nlinarith
  have hhigh : s + (8 * (D:Int) - 1) * st.threshold ≤ (8 * D) * 32767 := by
    nlinarith
  obtain ⟨hq1, hq2⟩ := tdiv_bounds _ _ 32768 32767 hd (by norm_num) (by norm_num) hlow hhigh
  unfold wrap16s
  omega

lemma slicer_cadence (D : Nat) (M : List Int) : ∀ (st : SlicerState) (a : Int),
    st.skipSamples = (M.length : Int) + 1 →
    slicerRun D st (M ++ [a])
      = (⟨thrFold D st.threshold (M ++ [a]), (D : Int)⟩,
         [decide (a > thrFold D st.threshold (M ++ [a]))]) := by
  induction M with
  | nil =>
    intro st a hsk
    show slicerRun D st [a] = _
    unfold slicerRun slicerStep
    rw [if_pos (by rw [hsk]; norm_num)]
    rfl
  | cons m M' ih =>
    intro st a hsk
    simp only [List.length_cons] at hsk
    have hc : ¬(st.skipSamples - 1 < 1) := by
      rw [hsk]
      push_cast
      omega
    have hstep : slicerStep D st m
        = (⟨wrap16s (Int.tdiv (m + (8 * D - 1) * st.threshold) (8 * D)),
            st.skipSamples - 1⟩, none) := by
      unfold slicerStep
      rw [if_neg hc]
    show slicerRun D st (m :: (M' ++ [a])) = _
    unfold slicerRun
    rw [hstep]
    dsimp only
    rw [ih ⟨wrap16s (Int.tdiv (m + (8 * D - 1) * st.threshold) (8 * D)),
           st.skipSamples - 1⟩ a
          (by show st.skipSamples - 1 = (M'.length : Int) + 1
              rw [hsk]
              push_cast
              ring)]
    rfl

/-- Claim C6: the slicer updates the threshold unconditionally on every
sample to `(s + (8D - 1) * T) / (8D)` with truncating integer division
(stated both raw, with the `int16_t` store, and without it under the
signed-16-bit ranges, where the store never wraps); one bit is decided
exactly every `D` samples, when the countdown runs out, and it compares
the sample with the just-updated threshold using strict greater-than, so
a sample equal to the threshold yields `false`. -/
theorem slicer_threshold_and_cadence :
    (∀ (D : Nat) (st : SlicerState) (s : Int),
       (slicerStep D st s).1.threshold
         = wrap16s (Int.tdiv (s + (8 * D - 1) * st.threshold) (8 * D))) ∧
    (∀ (D : Nat) (st : SlicerState) (s : Int), 2 ≤ D →
       -32768 ≤ s → s ≤ 32767 → -32768 ≤ st.threshold → st.threshold ≤ 32767 →
       (slicerStep D st s).1.threshold
         = Int.tdiv (s + (8 * D - 1) * st.threshold) (8 * D)) ∧
    (∀ (D : Nat) (st : SlicerState) (M : List Int) (a : Int),
       st.skipSamples = (M.length : Int) + 1 →
       (slicerRun D st (M ++ [a])).2
           = [decide (a > thrFold D st.threshold (M ++ [a]))] ∧
       (slicerRun D st (M ++ [a])).1.skipSamples = (D : Int) ∧
       (slicerRun D st (M ++ [a])).1.threshold = thrFold D st.threshold (M ++ [a])) ∧
    (∀ (D : Nat) (st : SlicerState) (M : List Int) (a : Int),
       st.skipSamples = (M.length : Int) + 1 →
       a = thrFold D st.threshold (M ++ [a]) →
       (slicerRun D st (M ++ [a])).2 = [false]) := by
  refine ⟨slicerStep_threshold, slicerStep_threshold_in_range, ?_, ?_⟩
  · intro D st M a hsk
    rw [slicer_cadence D M st a hsk]
    exact ⟨rfl, rfl, rfl⟩
  · intro D st M a hsk ha
    rw [slicer_cadence D M st a hsk, ← ha]
    simp

/-- Witness for C6 at downsample factor 2 with samples 100 then 7. -/
theorem slicer_threshold_and_cadence_witness :
    (slicerStep 2 ⟨0, 2⟩ 100).1.threshold = 6 ∧
    (slicerRun 2 ⟨0, 2⟩ ([100] ++ [7])).2 = [true] := by
  obtain ⟨h1, h2, h3, h4⟩ := slicer_threshold_and_cadence
  constructor
  · have h := h2 2 ⟨0, 2⟩ 100 (by norm_num) (by norm_num) (by norm_num)
      (by norm_num) (by norm_num)
    rw [h]
    decide
  · have h := (h3 2 ⟨0, 2⟩ [100] 7 (by decide)).1
    rw [h]
    decide

/-- Modelled from the spec: "SyncRegister implicitly starts fresh on
re-entry".  A variant of `processBit` that clears the sync register
whenever the continuation flag returns FrameSync to Searching; the
source `processBit` performs no such clearing. -/
def processBitFresh (s : DecState) (bit : Bool) : DecState :=
  if s.packetSync then
    if s.skipBit - 1 < 1 then
      let r := feedByte s (shiftIn8 s.byteReg bit)
      if r.packetSync then r else { r with syncBuffer := 0 }
    else
      { s with byteReg := shiftIn8 s.byteReg bit, skipBit := s.skipBit - 1 }
  else
    let r := shiftIn16 s.syncBuffer bit
    if r = SYNC_WORD ∨ r = 0xffff - SYNC_WORD then
      { s with syncBuffer := r, packetSync := true,
               diags := if s.verbose then s.diags + 1 else s.diags,
               skipBit := 8, len := -1, offset := 0,
               computedCrc := 0x1D0F, readCrc := 0 }
    else
      { s with syncBuffer := r, packetSync := false }

/-- Run the fresh-register variant over a list of bits. -/
def processBitsFresh (s : DecState) (L : List Bool) : DecState :=
  L.foldl processBitFresh s

/-- A bitstream that locks on the complemented sync word, loses the lock
on a CRC mismatch, and then carries only 15 more bits: the tail of the
complemented sync word. -/
def staleRelockStream : List Bool :=
  bits16 0xD255 ++ bytesBits [0, 0, 0] ++
    [true, false, true, false, false, true, false, false, true, false, true,
     false, true, false, true]

lemma processByte_keeps_syncBuffer (s : DecState) (b : Nat) :
    (processByte s b).1.syncBuffer = s.syncBuffer := by
  unfold processByte
  split_ifs <;> rfl

lemma processByte_syncBuffer_irrel (s : DecState) (r : Nat) (b : Nat) :
    (processByte { s with syncBuffer := r } b).2 = (processByte s b).2 := by
  unfold processByte
  dsimp only
  split_ifs <;> rfl

/-- Counterexample to claim C7: on `staleRelockStream` the decoder
relocks after only 15 post-rejection bits because the sync register
retained the pre-lock value `0xD555`, while the spec-modelled variant
whose register starts fresh on re-entry does not lock. -/
theorem stale_sync_register_counterexample :
    (processBits (initState false) staleRelockStream).packetSync = true ∧
    (processBitsFresh (initState false) staleRelockStream).packetSync = false := by
  constructor
  · decide
  · decide

/-- Claim C7 as amended: while FrameSync is Locked the sync register is
neither updated nor compared (a locked step leaves it unchanged, and its
value has no influence on whether the decoder stays locked), but when a
continuation flag of false returns FrameSync to Searching the register
retains its pre-lock contents rather than starting fresh: on
`staleRelockStream` the leftover complement value combines with only 15
subsequent bits to produce a match that a freshly cleared register would
not produce. -/
theorem locked_sync_register_behavior :
    (∀ (s : DecState) (b : Bool), s.packetSync = true →
       (processBit s b).syncBuffer = s.syncBuffer ∧
       ∀ r : Nat, (processBit { s with syncBuffer := r } b).packetSync
           = (processBit s b).packetSync) ∧
    ((processBits (initState false) staleRelockStream).packetSync = true ∧
     (processBitsFresh (initState false) staleRelockStream).packetSync = false) := by
  constructor
  · intro s b hps
    constructor
    · by_cases hc : s.skipBit - 1 < 1
      · rw [locked_step_bytedone s b hps hc]
        show (feedByte s (shiftIn8 s.byteReg b)).syncBuffer = s.syncBuffer
        unfold feedByte
        dsimp only
        rw [processByte_keeps_syncBuffer]
      · rw [locked_step_mid s b hps hc]
    · intro r
      by_cases hc : s.skipBit - 1 < 1
      · rw [locked_step_bytedone s b hps hc,
            locked_step_bytedone { s with syncBuffer := r } b hps hc]
        show (feedByte { s with syncBuffer := r } (shiftIn8 s.byteReg b)).packetSync
            = (feedByte s (shiftIn8 s.byteReg b)).packetSync
        unfold feedByte
        dsimp only
        exact processByte_syncBuffer_irrel
          { s with byteReg := shiftIn8 s.byteReg b, skipBit := 8 } r (shiftIn8 s.byteReg b)
      · rw [locked_step_mid s b hps hc, locked_step_mid { s with syncBuffer := r } b hps hc]
  · exact ⟨by decide, by decide⟩

/-- Witness for the amended C7 at a concrete locked state and register
value. -/
theorem locked_sync_register_behavior_witness :
    (processBit { initState false with packetSync := true } true).syncBuffer = 0 ∧
    (processBit { initState false with packetSync := true, syncBuffer := 5 } true).packetSync
      = (processBit { initState false with packetSync := true } true).packetSync := by
  obtain ⟨h1, _⟩ := locked_sync_register_behavior
  obtain ⟨ha, hb⟩ := h1 { initState false with packetSync := true } true rfl
  exact ⟨ha, hb 5⟩
